import Mathlib

/-!
# temporal-rollback: version resolution

A shallow embedding of the parts of the repository that decide which logic
version a workflow execution runs:

* `handler_v2_final.WorkflowVersionOverrideFlags.RandomizeWorkflowVersionOverride`
  (the rollout resolver) and `handler_v2_final.OrderWorkflow`;
* `util.GetVersion` (the versioned execution gate);
* `handler_v2_baddesign.OrderWorkflow` (branch dispatch on the engine's version).

Modelling conventions.

* Go `int` is the signed integer of a 64-bit platform: a value is an `Int`,
  and every addition the code performs is reduced to `[-2^63, 2^63)` by
  `wrapInt`.
  The exact sums the statements speak about (`exactTotal`, `exactRunningSum`)
  are plain sums in `Int`, defined without any of the code's loops.
* A Go map is a list of key/value entries without repeated keys.  For the
  rollout configuration the order of the list is the order in which `range`
  happens to visit the map, so a statement over all lists covers every
  iteration order.  A possibly nil `map[string]int` is an `Option` of such a
  list.
* A Go panic is `Except.error`.
* `rand.Intn` is driven by an explicit table of outcomes: `pick name` is the
  number the generator hands back while the Change `name` is processed.
* The engine's `workflow.GetVersion` is a parameter: an arbitrary function on
  an arbitrary engine state that either returns a version and the next state
  or panics.  Every call to it, every log line and every call of a processing
  branch is appended to a trace kept in the context, so that "which calls
  were made" is an observable of the model.
-/

/-! ## Go integers and maps with string keys -/

/-- The value a 64-bit signed `int` holds after an operation whose exact
result is `x`: `x` reduced modulo `2^64` to the range `[-2^63, 2^63)`. -/
def wrapInt (x : Int) : Int := (x + 2 ^ 63) % 2 ^ 64 - 2 ^ 63

/-- Reading `m[k]` with the comma-ok form on a map that is not nil. -/
def mapGet {β : Type} (m : List (String × β)) (k : String) : Option β :=
  match m with
  | [] => none
  | (k', v) :: rest => if k' = k then some v else mapGet rest k

/-- The assignment `m[k] = v`: an existing entry for `k` is overwritten in
place, otherwise a new entry is added. -/
def mapSet {β : Type} (m : List (String × β)) (k : String) (v : β) : List (String × β) :=
  match m with
  | [] => [(k, v)]
  | (k', v') :: rest => if k' = k then (k, v) :: rest else (k', v') :: mapSet rest k v

/-- Reading `m[k]` with the comma-ok form on a map that may be nil: a nil map
has no entry for any key. -/
def mapGetNil {β : Type} (m : Option (List (String × β))) (k : String) : Option β :=
  match m with
  | none => none
  | some entries => mapGet entries k

namespace rand

/-- Go's `rand.Intn(n)`: panics when `n <= 0`, otherwise returns the outcome
`r` of the generator (a number in `[0, n)` for a real generator). -/
def Intn (n : Int) (r : Int) : Except String Int :=
  if n ≤ 0 then Except.error "invalid argument to Intn" else Except.ok r

end rand

/-! ## The engine -/

/-- The identifier and payload of an order (`uuid.UUID` values are numbers). -/
structure Order where
  ID : Nat
  ProductID : Nat
  Quantity : Int
deriving DecidableEq

/-- What a workflow does that is visible from outside, in the order it
happens. -/
inductive Event where
  | getVersion (changeID : String) (minSupported maxSupported : Int)
  | logInfo (msg : String)
  | logError (msg : String)
  | processOrder (order : Order)
  | processOrderV2 (order : Order)
deriving DecidableEq

/-- The error value a workflow function returns (`nil` is `none`). -/
inductive WorkflowError where
  | failure (msg : String)
  | continueAsNew (workflowName : String) (input : Order)
deriving DecidableEq

/-- The `workflow.Context` of one execution: the state of the engine and the
trace of what the workflow did so far. -/
structure Context (σ : Type) where
  engine : σ
  trace : List Event

/-- Appends one event to the trace. -/
def Context.emit {σ : Type} (ctx : Context σ) (e : Event) : Context σ :=
  { engine := ctx.engine, trace := ctx.trace ++ [e] }

/-- The engine's versioning primitive: from the engine state and
`(changeID, minSupported, maxSupported)` either to a version and the next
state, or to a panic. -/
abbrev VersionPrimitive (σ : Type) := σ → String → Int → Int → Except String (Int × σ)

namespace workflow

/-- The SDK constant `workflow.DefaultVersion`. -/
def DefaultVersion : Int := -1

/-- A call of `workflow.GetVersion(ctx, changeID, minSupported, maxSupported)`:
the call is put on the trace and the primitive runs on the engine state; when
it panics the panic is the outcome of the call. -/
def GetVersion {σ : Type} (prim : VersionPrimitive σ) (ctx : Context σ) (changeID : String)
    (minSupported maxSupported : Int) : Except String Int × Context σ :=
  match prim ctx.engine changeID minSupported maxSupported with
  | Except.ok (version, engine) =>
    (Except.ok version,
      { engine := engine,
        trace := ctx.trace ++ [Event.getVersion changeID minSupported maxSupported] })
  | Except.error e =>
    (Except.error e,
      { engine := ctx.engine,
        trace := ctx.trace ++ [Event.getVersion changeID minSupported maxSupported] })

end workflow

/-- An engine that behaves as the SDK does on first execution and afterwards:
a marker recorded earlier for `changeID` is the version, otherwise
`maxSupported` is the version and is recorded; in both cases a version outside
`[minSupported, maxSupported]` makes the call panic.  The state is the table
of recorded markers. -/
def markerEngine : VersionPrimitive (List (String × Int)) :=
  fun markers changeID minSupported maxSupported =>
    match mapGet markers changeID with
    | some recorded =>
      if recorded < minSupported ∨ maxSupported < recorded then
        Except.error "version outside the supported range"
      else Except.ok (recorded, markers)
    | none =>
      if maxSupported < minSupported then
        Except.error "version outside the supported range"
      else Except.ok (maxSupported, mapSet markers changeID maxSupported)

/-! ## util -/

namespace util

/-- The function `GetVersion` of `util/util.go`. -/
def GetVersion {σ : Type} (prim : VersionPrimitive σ) (ctx : Context σ)
    (versionOverride : Option (List (String × Int))) (changeID : String)
    (minSupported maxSupported : Int) : Except String Int × Context σ :=
  match mapGetNil versionOverride changeID with
  | some overriddenVersion =>
    match workflow.GetVersion prim ctx changeID overriddenVersion maxSupported with
    | (Except.error e, ctx) => (Except.error e, ctx)
    | (Except.ok _, ctx) => (Except.ok overriddenVersion, ctx)
  | none => workflow.GetVersion prim ctx changeID minSupported maxSupported

end util

/-! ## handler_v2_final -/

namespace handler_v2_final

/-- One candidate of a Change. -/
structure WorkflowVersionOverrideFlagValue where
  OverriddenVersion : Int
  RolloutWeight : Int
deriving DecidableEq

/-- The rollout configuration, a Go map from the name of a Change to its
candidates: `entries` lists the map in the order `range` visits it, and a map
holds a key once. -/
structure WorkflowVersionOverrideFlags where
  entries : List (String × List WorkflowVersionOverrideFlagValue)
  keys_nodup : (entries.map Prod.fst).Nodup

/-- The exact sum of the weights of the candidates. -/
def exactTotal (values : List WorkflowVersionOverrideFlagValue) : Int :=
  (values.map (fun value => value.RolloutWeight)).sum

/-- The exact sum of the weights of the first `k` candidates. -/
def exactRunningSum (values : List WorkflowVersionOverrideFlagValue) (k : Nat) : Int :=
  exactTotal (values.take k)

/-- The first inner loop: `totalWeight := 0; for ... { totalWeight += value.RolloutWeight }`. -/
def sumWeights (totalWeight : Int) (values : List WorkflowVersionOverrideFlagValue) : Int :=
  match values with
  | [] => totalWeight
  | value :: rest => sumWeights (wrapInt (totalWeight + value.RolloutWeight)) rest

/-- The second inner loop, entered with the running `cumulativeWeight`: the
first candidate at which `randomPick < cumulativeWeight` is written to
`results` and the loop is left. -/
def walk (featureFlagName : String) (randomPick : Int) (cumulativeWeight : Int)
    (values : List WorkflowVersionOverrideFlagValue) (results : List (String × Int)) :
    List (String × Int) :=
  match values with
  | [] => results
  | value :: rest =>
    let cumulativeWeight := wrapInt (cumulativeWeight + value.RolloutWeight)
    if randomPick < cumulativeWeight then
      mapSet results featureFlagName value.OverriddenVersion
    else
      walk featureFlagName randomPick cumulativeWeight rest results

/-- The body of the outer loop for one Change. -/
def resolveChange (pick : String → Int) (results : List (String × Int))
    (featureFlagName : String) (values : List WorkflowVersionOverrideFlagValue) :
    Except String (List (String × Int)) :=
  let totalWeight := sumWeights 0 values
  if totalWeight = 0 then
    Except.ok results
  else
    match rand.Intn totalWeight (pick featureFlagName) with
    | Except.error e => Except.error e
    | Except.ok randomPick => Except.ok (walk featureFlagName randomPick 0 values results)

/-- What the body of the outer loop leaves in `results` for one Change whose
total weight, as the code computes it, is not negative. -/
def changeResult (pick : String → Int) (results : List (String × Int)) (name : String)
    (values : List WorkflowVersionOverrideFlagValue) : List (String × Int) :=
  if sumWeights 0 values = 0 then results else walk name (pick name) 0 values results

/-- The outer loop `for featureFlagName, values := range f`. -/
def resolveAll (pick : String → Int) (entries : List (String × List WorkflowVersionOverrideFlagValue))
    (results : List (String × Int)) : Except String (List (String × Int)) :=
  match entries with
  | [] => Except.ok results
  | (featureFlagName, values) :: rest =>
    match resolveChange pick results featureFlagName values with
    | Except.error e => Except.error e
    | Except.ok results => resolveAll pick rest results

/-- The method `RandomizeWorkflowVersionOverride`: `results` starts empty and
is returned after the loop over the configuration. -/
def WorkflowVersionOverrideFlags.RandomizeWorkflowVersionOverride
    (f : WorkflowVersionOverrideFlags) (pick : String → Int) :
    Except String (List (String × Int)) :=
  resolveAll pick f.entries []

/-- The method `ProcessOrder`: returns nil. -/
def ProcessOrder {σ : Type} (ctx : Context σ) (order : Order) :
    Option WorkflowError × Context σ :=
  (none, ctx.emit (Event.processOrder order))

/-- The method `ProcessOrderV2`: returns nil. -/
def ProcessOrderV2 {σ : Type} (ctx : Context σ) (order : Order) :
    Option WorkflowError × Context σ :=
  (none, ctx.emit (Event.processOrderV2 order))

/-- The method `OrderWorkflow` of `handler_v2_final/handler.go`. -/
def OrderWorkflow {σ : Type} (ctx : Context σ) (_versionOverride : Option (List (String × Int)))
    (order : Order) : Option WorkflowError × Context σ :=
  let ctx := ctx.emit (Event.logInfo "Starting OrderWorkflow")
  match ProcessOrderV2 ctx order with
  | (some err, ctx) => (some err, ctx.emit (Event.logError "Failed to process order"))
  | (none, ctx) => (none, ctx.emit (Event.logInfo "Order processed successfully"))

end handler_v2_final

/-! ## handler_v2_baddesign -/

namespace handler_v2_baddesign

/-- The method `ProcessOrder`: returns nil. -/
def ProcessOrder {σ : Type} (ctx : Context σ) (order : Order) :
    Option WorkflowError × Context σ :=
  (none, ctx.emit (Event.processOrder order))

/-- The method `ProcessOrderV2`: returns nil. -/
def ProcessOrderV2 {σ : Type} (ctx : Context σ) (order : Order) :
    Option WorkflowError × Context σ :=
  (none, ctx.emit (Event.processOrderV2 order))

/-- The method `OrderWorkflow` of `handler_v2_baddesign/handler.go`; a panic
of the engine call ends the function with that panic. -/
def OrderWorkflow {σ : Type} (prim : VersionPrimitive σ) (ctx : Context σ) (order : Order) :
    Except String (Option WorkflowError) × Context σ :=
  match workflow.GetVersion prim ctx "OrderWorkflowVersion" workflow.DefaultVersion 2 with
  | (Except.error e, ctx) => (Except.error e, ctx)
  | (Except.ok version, ctx) =>
    let ctx := ctx.emit (Event.logInfo "Starting OrderWorkflow")
    if version = workflow.DefaultVersion then
      match ProcessOrder ctx order with
      | (some err, ctx) =>
        (Except.ok (some err),
          ctx.emit (Event.logError "Failed to process order (default version)"))
      | (none, ctx) => (Except.ok none, ctx.emit (Event.logInfo "Order processed successfully"))
    else if version = 2 then
      match ProcessOrderV2 ctx order with
      | (some err, ctx) =>
        (Except.ok (some err), ctx.emit (Event.logError "Failed to process order (V2)"))
      | (none, ctx) => (Except.ok none, ctx.emit (Event.logInfo "Order processed successfully"))
    else
      (Except.ok (some (WorkflowError.continueAsNew "OrderWorkflow" order)), ctx)

end handler_v2_baddesign

/-! ## Sample inputs -/

/-- The empty configuration (Scenario C of the specification). -/
def emptyFlags : handler_v2_final.WorkflowVersionOverrideFlags :=
  { entries := [], keys_nodup := by simp }

/-- A configuration with an empty candidate list (`X`), a Change whose weights
are all zero (`Z`) and a Change with weights 10 and 30 (`Y`). -/
def sampleFlags : handler_v2_final.WorkflowVersionOverrideFlags :=
  { entries := [("X", []),
                ("Z", [{ OverriddenVersion := 1, RolloutWeight := 0 },
                       { OverriddenVersion := 2, RolloutWeight := 0 }]),
                ("Y", [{ OverriddenVersion := 1, RolloutWeight := 10 },
                       { OverriddenVersion := 2, RolloutWeight := 30 }])],
    keys_nodup := by simp }

/-- The candidates of `Y` in `sampleFlags`. -/
def sampleValues : List handler_v2_final.WorkflowVersionOverrideFlagValue :=
  [{ OverriddenVersion := 1, RolloutWeight := 10 },
   { OverriddenVersion := 2, RolloutWeight := 30 }]

/-- A configuration whose only Change has the single weight -1. -/
def negativeFlags : handler_v2_final.WorkflowVersionOverrideFlags :=
  { entries := [("X", [{ OverriddenVersion := 1, RolloutWeight := -1 }])],
    keys_nodup := by simp }

/-- Four candidates of weight `2^62`: the exact total is `2^64`. -/
def fourQuarters : List handler_v2_final.WorkflowVersionOverrideFlagValue :=
  [{ OverriddenVersion := 1, RolloutWeight := 4611686018427387904 },
   { OverriddenVersion := 2, RolloutWeight := 4611686018427387904 },
   { OverriddenVersion := 3, RolloutWeight := 4611686018427387904 },
   { OverriddenVersion := 4, RolloutWeight := 4611686018427387904 }]

/-- The configuration whose only Change `X` has the candidates `fourQuarters`. -/
def fourQuartersFlags : handler_v2_final.WorkflowVersionOverrideFlags :=
  { entries := [("X", fourQuarters)], keys_nodup := by simp }

/-- The configuration whose only Change `X` has the weights `2^63 - 1` and 1. -/
def maxPlusOneFlags : handler_v2_final.WorkflowVersionOverrideFlags :=
  { entries := [("X", [{ OverriddenVersion := 1, RolloutWeight := 9223372036854775807 },
                       { OverriddenVersion := 2, RolloutWeight := 1 }])],
    keys_nodup := by simp }

/-- Three candidates with the weights 1, `2^63 - 1` and `-(2^63 - 4)`: the
exact running sums are 1, `2^63` and 4. -/
def wrappingValues : List handler_v2_final.WorkflowVersionOverrideFlagValue :=
  [{ OverriddenVersion := 1, RolloutWeight := 1 },
   { OverriddenVersion := 2, RolloutWeight := 9223372036854775807 },
   { OverriddenVersion := 3, RolloutWeight := -9223372036854775804 }]

/-- The configuration whose only Change `X` has the candidates `wrappingValues`. -/
def wrappingFlags : handler_v2_final.WorkflowVersionOverrideFlags :=
  { entries := [("X", wrappingValues)], keys_nodup := by simp }

theorem wrapInt_of_inRange (x : Int) (h1 : -2 ^ 63 ≤ x) (h2 : x < 2 ^ 63) : wrapInt x = x := by
  unfold wrapInt
  omega

theorem wrapInt_idem (x : Int) : wrapInt (wrapInt x) = wrapInt x := by
  unfold wrapInt
  omega

theorem wrapInt_wrapInt_add (a b : Int) : wrapInt (wrapInt a + b) = wrapInt (a + b) := by
  unfold wrapInt
  omega

/-! ## Lemmas on maps -/

theorem mapGet_mapSet_self {β : Type} (m : List (String × β)) (k : String) (v : β) :
    mapGet (mapSet m k v) k = some v := by
  induction m with
  | nil => simp [mapSet, mapGet]
  | cons e rest ih =>
    obtain ⟨k0, v0⟩ := e
    by_cases h : k0 = k
    · simp [mapSet, mapGet, h]
    · simp [mapSet, mapGet, h, ih]

theorem mapGet_mapSet_ne {β : Type} (m : List (String × β)) (k k' : String) (v : β)
    (h : k' ≠ k) : mapGet (mapSet m k v) k' = mapGet m k' := by
  induction m with
  | nil => simp [mapSet, mapGet, Ne.symm h]
  | cons e rest ih =>
    obtain ⟨k0, v0⟩ := e
    by_cases h0 : k0 = k
    · subst h0
      simp [mapSet, mapGet, Ne.symm h]
    · simp [mapSet, mapGet, h0, ih]

namespace handler_v2_final

/-! ## Lemmas on exact sums -/

theorem exactTotal_nil : exactTotal [] = 0 := by
  simp [exactTotal]

theorem exactTotal_cons (v : WorkflowVersionOverrideFlagValue)
    (rest : List WorkflowVersionOverrideFlagValue) :
    exactTotal (v :: rest) = v.RolloutWeight + exactTotal rest := by
  simp [exactTotal]

theorem exactRunningSum_zero (values : List WorkflowVersionOverrideFlagValue) :
    exactRunningSum values 0 = 0 := by
  simp [exactRunningSum, exactTotal]

theorem exactRunningSum_cons_succ (v : WorkflowVersionOverrideFlagValue)
    (rest : List WorkflowVersionOverrideFlagValue) (k : Nat) :
    exactRunningSum (v :: rest) (k + 1) = v.RolloutWeight + exactRunningSum rest k := by
  simp [exactRunningSum, exactTotal_cons]

theorem exactRunningSum_length (values : List WorkflowVersionOverrideFlagValue) :
    exactRunningSum values values.length = exactTotal values := by
  simp [exactRunningSum]

theorem exactRunningSum_succ (values : List WorkflowVersionOverrideFlagValue) (k : Nat)
    (hk : k < values.length) :
    exactRunningSum values (k + 1) =
      exactRunningSum values k + (values.get ⟨k, hk⟩).RolloutWeight := by
  induction values generalizing k with
  | nil => simp at hk
  | cons v rest ih =>
    cases k with
    | zero => simp [exactRunningSum_cons_succ, exactRunningSum_zero]
    | succ k =>
      have hk2 : k < rest.length := by simpa using hk
      rw [exactRunningSum_cons_succ, exactRunningSum_cons_succ, ih k hk2]
      simp only [List.get_eq_getElem, List.getElem_cons_succ]
      ring

theorem exactTotal_nonneg (values : List WorkflowVersionOverrideFlagValue)
    (hnn : ∀ v ∈ values, 0 ≤ v.RolloutWeight) : 0 ≤ exactTotal values := by
  induction values with
  | nil => simp [exactTotal]
  | cons v rest ih =>
    rw [exactTotal_cons]
    have h1 := hnn v (by simp)
    have h2 := ih (fun w hw => hnn w (by simp [hw]))
    omega

theorem exactRunningSum_mono (values : List WorkflowVersionOverrideFlagValue)
    (hnn : ∀ v ∈ values, 0 ≤ v.RolloutWeight) (j k : Nat) (hjk : j ≤ k)
    (hk : k ≤ values.length) : exactRunningSum values j ≤ exactRunningSum values k := by
  induction k with
  | zero =>
    have hj0 : j = 0 := by omega
    subst hj0
    exact le_refl _
  | succ k ih =>
    rcases Nat.eq_or_lt_of_le hjk with heq | hlt
    · rw [heq]
    · have hk2 : k < values.length := by omega
      have h1 := ih (by omega) (by omega)
      have h2 := exactRunningSum_succ values k hk2
      have h3 := hnn (values.get ⟨k, hk2⟩) (List.get_mem _ _ _)
      omega

/-- With non-negative weights and an exact total below `2^63` every exact
running sum lies in `[0, 2^63)`. -/
theorem exactRunningSum_inRange (values : List WorkflowVersionOverrideFlagValue)
    (hnn : ∀ v ∈ values, 0 ≤ v.RolloutWeight) (hfit : exactTotal values < 2 ^ 63)
    (k : Nat) (hk : k ≤ values.length) :
    0 ≤ exactRunningSum values k ∧ exactRunningSum values k < 2 ^ 63 := by
  have h0 := exactRunningSum_mono values hnn 0 k (by omega) hk
  have h1 := exactRunningSum_mono values hnn k values.length hk (le_refl _)
  rw [exactRunningSum_zero] at h0
  rw [exactRunningSum_length] at h1
  omega

/-! ## Lemmas on the two inner loops -/

/-- The first loop computes the exact total reduced to 64 bits. -/
theorem sumWeights_eq_wrapInt (acc : Int) (values : List WorkflowVersionOverrideFlagValue)
    (hacc : wrapInt acc = acc) :
    sumWeights acc values = wrapInt (acc + exactTotal values) := by
  induction values generalizing acc with
  | nil => simp [sumWeights, exactTotal, hacc]
  | cons v rest ih =>
    simp only [sumWeights]
    rw [ih _ (wrapInt_idem _), wrapInt_wrapInt_add, exactTotal_cons]
    congr 1
    ring

theorem sumWeights_zero (values : List WorkflowVersionOverrideFlagValue) :
    sumWeights 0 values = wrapInt (exactTotal values) := by
  have h0 : wrapInt 0 = 0 := by unfold wrapInt; omega
  rw [sumWeights_eq_wrapInt 0 values h0]
  congr 1
  ring

/-- When the exact total fits a 64-bit integer the first loop computes it. -/
theorem sumWeights_eq_exactTotal (values : List WorkflowVersionOverrideFlagValue)
    (h1 : -2 ^ 63 ≤ exactTotal values) (h2 : exactTotal values < 2 ^ 63) :
    sumWeights 0 values = exactTotal values := by
  rw [sumWeights_zero, wrapInt_of_inRange _ h1 h2]

/-- When the running sums seen by the second loop all fit a 64-bit integer
and the draw is below the last of them, the loop writes the version of the
first candidate whose running sum exceeds the draw, and nothing else. -/
theorem walk_first_exceeding (name : String) (r c : Int)
    (values : List WorkflowVersionOverrideFlagValue) (results : List (String × Int))
    (hin : ∀ k, k < values.length →
      -2 ^ 63 ≤ c + exactRunningSum values (k + 1) ∧ c + exactRunningSum values (k + 1) < 2 ^ 63)
    (hne : 0 < values.length) (hr : r < c + exactTotal values) :
    ∃ i, ∃ hi : i < values.length,
      walk name r c values results =
        mapSet results name (values.get ⟨i, hi⟩).OverriddenVersion ∧
      r < c + exactRunningSum values (i + 1) ∧
      ∀ j, j < i → c + exactRunningSum values (j + 1) ≤ r := by
  induction values generalizing c with
  | nil => simp at hne
  | cons v rest ih =>
    have h0 := hin 0 (by simp)
    simp only [exactRunningSum_cons_succ, exactRunningSum_zero] at h0
    have hw : wrapInt (c + v.RolloutWeight) = c + v.RolloutWeight :=
      wrapInt_of_inRange _ (by omega) (by omega)
    by_cases hlt : r < c + v.RolloutWeight
    · refine ⟨0, by simp, by simp [walk, hw, hlt], ?_, by simp⟩
      simpa [exactRunningSum_cons_succ, exactRunningSum_zero] using hlt
    · have hrest : 0 < rest.length := by
        cases rest with
        | nil =>
          simp only [exactTotal_cons, exactTotal_nil] at hr
          omega
        | cons w tail => simp
      have hin2 : ∀ k, k < rest.length →
          -2 ^ 63 ≤ c + v.RolloutWeight + exactRunningSum rest (k + 1) ∧
          c + v.RolloutWeight + exactRunningSum rest (k + 1) < 2 ^ 63 := by
        intro k hk
        have := hin (k + 1) (by simpa using hk)
        rw [exactRunningSum_cons_succ] at this
        omega
      have hr2 : r < c + v.RolloutWeight + exactTotal rest := by
        rw [exactTotal_cons] at hr
        omega
      obtain ⟨i, hi, hwalk, hlt2, hall⟩ := ih (c + v.RolloutWeight) hin2 hrest hr2
      refine ⟨i + 1, by simpa using hi, ?_, ?_, ?_⟩
      · simp only [walk, hw, hlt, if_false]
        rw [hwalk]
        simp
      · rw [exactRunningSum_cons_succ]
        omega
      · intro j hj
        cases j with
        | zero =>
          simp only [exactRunningSum_cons_succ, exactRunningSum_zero]
          omega
        | succ j =>
          have := hall j (by omega)
          rw [exactRunningSum_cons_succ]
          omega

theorem walk_get_other (name : String) (r c : Int)
    (values : List WorkflowVersionOverrideFlagValue) (results : List (String × Int))
    (k : String) (hk : k ≠ name) :
    mapGet (walk name r c values results) k = mapGet results k := by
  induction values generalizing c with
  | nil => rfl
  | cons v rest ih =>
    by_cases hlt : r < wrapInt (c + v.RolloutWeight)
    · simp [walk, hlt, mapGet_mapSet_ne _ _ _ _ hk]
    · simp only [walk, hlt, if_false]
      exact ih _

theorem walk_get_congr (name : String) (r c : Int)
    (values : List WorkflowVersionOverrideFlagValue) (res1 res2 : List (String × Int))
    (h : mapGet res1 name = mapGet res2 name) :
    mapGet (walk name r c values res1) name = mapGet (walk name r c values res2) name := by
  induction values generalizing c with
  | nil => exact h
  | cons v rest ih =>
    by_cases hlt : r < wrapInt (c + v.RolloutWeight)
    · simp [walk, hlt, mapGet_mapSet_self]
    · simp only [walk, hlt, if_false]
      exact ih _

/-! ## Lemmas on the outer loop -/

theorem resolveChange_zero (pick : String → Int) (results : List (String × Int))
    (name : String) (values : List WorkflowVersionOverrideFlagValue)
    (h : sumWeights 0 values = 0) :
    resolveChange pick results name values = Except.ok results := by
  simp [resolveChange, h]

theorem resolveChange_pos (pick : String → Int) (results : List (String × Int))
    (name : String) (values : List WorkflowVersionOverrideFlagValue)
    (h : 0 < sumWeights 0 values) :
    resolveChange pick results name values =
      Except.ok (walk name (pick name) 0 values results) := by
  have h1 : sumWeights 0 values ≠ 0 := by omega
  have h2 : ¬ sumWeights 0 values ≤ 0 := by omega
  simp [resolveChange, rand.Intn, h1, h2]

theorem resolveChange_neg (pick : String → Int) (results : List (String × Int))
    (name : String) (values : List WorkflowVersionOverrideFlagValue)
    (h : sumWeights 0 values < 0) :
    resolveChange pick results name values = Except.error "invalid argument to Intn" := by
  have h1 : sumWeights 0 values ≠ 0 := by omega
  have h2 : sumWeights 0 values ≤ 0 := by omega
  simp [resolveChange, rand.Intn, h1, h2]

/-- The loop over the configuration returns when no Change has a negative
total weight. -/
theorem resolveAll_ok_of_nonneg (pick : String → Int)
    (entries : List (String × List WorkflowVersionOverrideFlagValue))
    (results : List (String × Int))
    (h : ∀ e ∈ entries, 0 ≤ sumWeights 0 e.2) :
    ∃ m, resolveAll pick entries results = Except.ok m := by
  induction entries generalizing results with
  | nil => exact ⟨results, rfl⟩
  | cons e rest ih =>
    obtain ⟨name, values⟩ := e
    have h0 : 0 ≤ sumWeights 0 values := h (name, values) (by simp)
    have hrest : ∀ e ∈ rest, 0 ≤ sumWeights 0 e.2 := fun e he => h e (by simp [he])
    rcases eq_or_lt_of_le h0 with hz | hp
    · simp only [resolveAll, resolveChange_zero pick results name values hz.symm]
      exact ih results hrest
    · simp only [resolveAll, resolveChange_pos pick results name values hp]
      exact ih _ hrest

theorem resolveChange_ok (pick : String → Int) (results m : List (String × Int))
    (name : String) (values : List WorkflowVersionOverrideFlagValue)
    (h : resolveChange pick results name values = Except.ok m) :
    m = changeResult pick results name values ∧ 0 ≤ sumWeights 0 values := by
  rcases lt_trichotomy (sumWeights 0 values) 0 with hn | hz | hp
  · rw [resolveChange_neg pick results name values hn] at h
    cases h
  · rw [resolveChange_zero pick results name values hz] at h
    cases h
    simp [changeResult, hz]
  · rw [resolveChange_pos pick results name values hp] at h
    cases h
    have h1 : sumWeights 0 values ≠ 0 := by omega
    exact ⟨by simp [changeResult, h1], by omega⟩

theorem changeResult_get_other (pick : String → Int) (results : List (String × Int))
    (name : String) (values : List WorkflowVersionOverrideFlagValue) (k : String)
    (hk : k ≠ name) :
    mapGet (changeResult pick results name values) k = mapGet results k := by
  unfold changeResult
  split
  · rfl
  · exact walk_get_other _ _ _ _ _ _ hk

theorem changeResult_get_congr (pick : String → Int) (res1 res2 : List (String × Int))
    (name : String) (values : List WorkflowVersionOverrideFlagValue)
    (h : mapGet res1 name = mapGet res2 name) :
    mapGet (changeResult pick res1 name values) name =
      mapGet (changeResult pick res2 name values) name := by
  unfold changeResult
  split
  · exact h
  · exact walk_get_congr _ _ _ _ _ _ h

/-- A key that is not in the configuration is not touched by the loop. -/
theorem resolveAll_get_not_mem (pick : String → Int)
    (entries : List (String × List WorkflowVersionOverrideFlagValue))
    (results m : List (String × Int)) (k : String)
    (h : resolveAll pick entries results = Except.ok m)
    (hk : k ∉ entries.map Prod.fst) : mapGet m k = mapGet results k := by
  induction entries generalizing results with
  | nil =>
    simp only [resolveAll] at h
    cases h
    rfl
  | cons e rest ih =>
    obtain ⟨name, values⟩ := e
    simp only [List.map_cons, List.mem_cons, not_or] at hk
    simp only [resolveAll] at h
    cases hc : resolveChange pick results name values with
    | error err => rw [hc] at h; cases h
    | ok res2 =>
      rw [hc] at h
      simp only at h
      rw [ih res2 h hk.2, (resolveChange_ok _ _ _ _ _ hc).1]
      exact changeResult_get_other _ _ _ _ _ hk.1

/-- For a Change of the configuration, the returned map holds under its name
what the body of the loop for that Change alone would leave there. -/
theorem resolveAll_get_mem (pick : String → Int)
    (entries : List (String × List WorkflowVersionOverrideFlagValue))
    (results m : List (String × Int)) (name : String)
    (values : List WorkflowVersionOverrideFlagValue)
    (hnd : (entries.map Prod.fst).Nodup)
    (h : resolveAll pick entries results = Except.ok m)
    (hmem : (name, values) ∈ entries) :
    mapGet m name = mapGet (changeResult pick results name values) name := by
  induction entries generalizing results with
  | nil => simp at hmem
  | cons e rest ih =>
    obtain ⟨name0, values0⟩ := e
    simp only [List.map_cons, List.nodup_cons] at hnd
    simp only [resolveAll] at h
    cases hc : resolveChange pick results name0 values0 with
    | error err => rw [hc] at h; cases h
    | ok res2 =>
      rw [hc] at h
      simp only at h
      have hres2 := (resolveChange_ok _ _ _ _ _ hc).1
      rcases List.mem_cons.1 hmem with heq | hin
      · cases heq
        rw [resolveAll_get_not_mem pick rest res2 m name h hnd.1, hres2]
      · have hne : name ≠ name0 := by
          intro hEq
          apply hnd.1
          rw [← hEq]
          exact List.mem_map.2 ⟨(name, values), hin, rfl⟩
        rw [ih res2 hnd.2 h hin]
        apply changeResult_get_congr
        rw [hres2]
        exact changeResult_get_other _ _ _ _ _ hne

/-! ## Consequences used by the statements on the resolver -/

/-- With non-negative weights and an exact total below `2^63`, a draw below
the total always stops the second loop at a candidate. -/
theorem walk_selects (name : String) (r : Int)
    (values : List WorkflowVersionOverrideFlagValue) (results : List (String × Int))
    (hin : ∀ k, k ≤ values.length →
      -2 ^ 63 ≤ exactRunningSum values k ∧ exactRunningSum values k < 2 ^ 63)
    (hpos : 0 < exactTotal values) (hr : r < exactTotal values) :
    ∃ i, ∃ hi : i < values.length,
      walk name r 0 values results =
        mapSet results name (values.get ⟨i, hi⟩).OverriddenVersion ∧
      r < exactRunningSum values (i + 1) ∧
      ∀ j, j < i → exactRunningSum values (j + 1) ≤ r := by
  have hlen : 0 < values.length := by
    cases values with
    | nil => simp [exactTotal] at hpos
    | cons v rest => simp
  have hin2 : ∀ k, k < values.length →
      -2 ^ 63 ≤ 0 + exactRunningSum values (k + 1) ∧
      0 + exactRunningSum values (k + 1) < 2 ^ 63 := by
    intro k hk
    have := hin (k + 1) (by omega)
    omega
  obtain ⟨i, hi, hw, hlt, hall⟩ :=
    walk_first_exceeding name r 0 values results hin2 hlen (by omega)
  refine ⟨i, hi, hw, by omega, ?_⟩
  intro j hj
  have := hall j hj
  omega

end handler_v2_final

/-! ## The rollout resolver -/

namespace handler_v2_final

/-- C1: a Change whose candidate weights sum to 0 (an empty candidate list
included) is skipped by the loop and has no entry in any map
`RandomizeWorkflowVersionOverride` returns, whatever the configuration and
the draws; and the empty configuration resolves to the empty map. -/
theorem zero_total_weight_has_no_entry (f : WorkflowVersionOverrideFlags)
    (pick : String → Int) (name : String)
    (values : List WorkflowVersionOverrideFlagValue)
    (hmem : (name, values) ∈ f.entries)
    (hzero : exactTotal values = 0) :
    (∀ results, resolveChange pick results name values = Except.ok results) ∧
    (∀ m, f.RandomizeWorkflowVersionOverride pick = Except.ok m → mapGet m name = none) ∧
    emptyFlags.RandomizeWorkflowVersionOverride pick = Except.ok [] := by
  have hcode : sumWeights 0 values = 0 := by
    rw [sumWeights_zero, hzero]
    unfold wrapInt
    omega
  refine ⟨fun results => resolveChange_zero pick results name values hcode, ?_, rfl⟩
  intro m hret
  rw [resolveAll_get_mem pick f.entries [] m name values f.keys_nodup hret hmem]
  simp [changeResult, hcode, mapGet]

theorem zero_total_weight_has_no_entry_witness :
    ("Z", [{ OverriddenVersion := 1, RolloutWeight := 0 },
           { OverriddenVersion := 2, RolloutWeight := 0 }]) ∈ sampleFlags.entries ∧
    exactTotal [{ OverriddenVersion := 1, RolloutWeight := 0 },
                { OverriddenVersion := 2, RolloutWeight := 0 }] = 0 ∧
    sampleFlags.RandomizeWorkflowVersionOverride (fun _ => 12) = Except.ok [("Y", 2)] ∧
    mapGet [("Y", (2 : Int))] "Z" = none :=
  ⟨by decide, by decide, rfl,
    (zero_total_weight_has_no_entry sampleFlags (fun _ => 12) "Z"
      [{ OverriddenVersion := 1, RolloutWeight := 0 },
       { OverriddenVersion := 2, RolloutWeight := 0 }] (by decide) (by decide)).2.1
      [("Y", 2)] rfl⟩

/-- C2, as stated, fails: the four weights `2^62` are non-negative and sum to
`2^64`, not 0, and the draw 0 lies below that total, yet the 64-bit total the
code computes is 0, the Change is skipped and the returned map is empty; and
with the non-negative weights `2^63 - 1` and 1 the computed total is `-2^63`
and `rand.Intn` panics, so no map is returned. -/
theorem entry_iff_total_weight_nonzero_fails_on_overflow :
    (∀ v ∈ fourQuarters, 0 ≤ v.RolloutWeight) ∧
    exactTotal fourQuarters = 18446744073709551616 ∧
    (0 : Int) ≤ 0 ∧ 0 < exactTotal fourQuarters ∧
    sumWeights 0 fourQuarters = 0 ∧
    fourQuartersFlags.RandomizeWorkflowVersionOverride (fun _ => 0) = Except.ok [] ∧
    mapGet ([] : List (String × Int)) "X" = none ∧
    (∀ e ∈ maxPlusOneFlags.entries, ∀ v ∈ e.2, 0 ≤ v.RolloutWeight) ∧
    maxPlusOneFlags.RandomizeWorkflowVersionOverride (fun _ => 0) =
      Except.error "invalid argument to Intn" := by
  refine ⟨by decide, by decide, by decide, by decide, by decide, by rfl, rfl, by decide, ?_⟩
  simp [maxPlusOneFlags, WorkflowVersionOverrideFlags.RandomizeWorkflowVersionOverride,
    resolveAll, resolveChange, sumWeights, rand.Intn, wrapInt]

/-- C2, amended: when all candidate weights are non-negative, the weights of
every Change sum to less than `2^63`, and every draw lies in
`[0, total weight)` of its Change, `RandomizeWorkflowVersionOverride` returns
a map that has an entry for a Change of the configuration exactly when the
total weight of that Change is not zero, and that has no key from outside the
configuration. -/
theorem entry_iff_total_weight_nonzero (f : WorkflowVersionOverrideFlags)
    (pick : String → Int)
    (hnn : ∀ e ∈ f.entries, ∀ v ∈ e.2, 0 ≤ v.RolloutWeight)
    (hfit : ∀ e ∈ f.entries, exactTotal e.2 < 2 ^ 63)
    (hdraw : ∀ e ∈ f.entries, exactTotal e.2 ≠ 0 →
      0 ≤ pick e.1 ∧ pick e.1 < exactTotal e.2) :
    ∃ m, f.RandomizeWorkflowVersionOverride pick = Except.ok m ∧
      (∀ name values, (name, values) ∈ f.entries →
        ((mapGet m name).isSome ↔ exactTotal values ≠ 0)) ∧
      (∀ k, (mapGet m k).isSome → k ∈ f.entries.map Prod.fst) := by
  have hcode : ∀ e ∈ f.entries, sumWeights 0 e.2 = exactTotal e.2 := by
    intro e he
    have h0 := exactTotal_nonneg e.2 (hnn e he)
    exact sumWeights_eq_exactTotal e.2 (by omega) (hfit e he)
  obtain ⟨m, hm⟩ := resolveAll_ok_of_nonneg pick f.entries []
    (fun e he => by rw [hcode e he]; exact exactTotal_nonneg e.2 (hnn e he))
  refine ⟨m, hm, ?_, ?_⟩
  · intro name values hmem
    rw [resolveAll_get_mem pick f.entries [] m name values f.keys_nodup hm hmem]
    have hc := hcode (name, values) hmem
    simp only at hc
    by_cases hz : exactTotal values = 0
    · simp [changeResult, hc, hz, mapGet]
    · have h0 := exactTotal_nonneg values (hnn (name, values) hmem)
      have hin : ∀ k, k ≤ values.length →
          -2 ^ 63 ≤ exactRunningSum values k ∧ exactRunningSum values k < 2 ^ 63 := by
        intro k hk
        have := exactRunningSum_inRange values (hnn (name, values) hmem)
          (hfit (name, values) hmem) k hk
        omega
      obtain ⟨i, hi, hw, -, -⟩ :=
        walk_selects name (pick name) values [] hin (by omega)
          (hdraw (name, values) hmem hz).2
      simp [changeResult, hc, hz, hw, mapGet_mapSet_self]
  · intro k hk
    by_contra hnot
    rw [resolveAll_get_not_mem pick f.entries [] m k hm hnot] at hk
    simp [mapGet] at hk

theorem entry_iff_total_weight_nonzero_witness :
    (∀ e ∈ sampleFlags.entries, ∀ v ∈ e.2, 0 ≤ v.RolloutWeight) ∧
    (∀ e ∈ sampleFlags.entries, exactTotal e.2 < 2 ^ 63) ∧
    (∀ e ∈ sampleFlags.entries, exactTotal e.2 ≠ 0 →
      0 ≤ (fun _ => (12 : Int)) e.1 ∧ (fun _ => (12 : Int)) e.1 < exactTotal e.2) ∧
    sampleFlags.RandomizeWorkflowVersionOverride (fun _ => 12) = Except.ok [("Y", 2)] ∧
    ∃ m, sampleFlags.RandomizeWorkflowVersionOverride (fun _ => 12) = Except.ok m ∧
      (∀ name values, (name, values) ∈ sampleFlags.entries →
        ((mapGet m name).isSome ↔ exactTotal values ≠ 0)) ∧
      (∀ k, (mapGet m k).isSome → k ∈ sampleFlags.entries.map Prod.fst) :=
  ⟨by decide, by decide, by decide, rfl,
    entry_iff_total_weight_nonzero sampleFlags (fun _ => 12) (by decide) (by decide)
      (by decide)⟩

/-- C3, as stated, fails: with the weights 1, `2^63 - 1`, `-(2^63 - 4)` the
total is 4 and the draw 2 lies in `[0, 4)`; the first candidate whose running
sum (1, `2^63`, 4) exceeds 2 is the second one, of version 2, yet the 64-bit
running sum of the code is `-2^63` there and the code stores version 3. -/
theorem stored_version_differs_after_wrap :
    exactTotal wrappingValues = 4 ∧
    exactRunningSum wrappingValues 1 = 1 ∧
    exactRunningSum wrappingValues 2 = 9223372036854775808 ∧
    (wrappingValues.get ⟨1, by decide⟩).OverriddenVersion = 2 ∧
    wrappingFlags.RandomizeWorkflowVersionOverride (fun _ => 2) = Except.ok [("X", 3)] := by
  refine ⟨by decide, by decide, by decide, by decide, by rfl⟩

/-- C3, amended: for a Change whose running sums of weights all stay within
`[-2^63, 2^63)`, with total weight `W > 0` and a draw `r` with `0 <= r < W`,
the loop stores for the Change the `OverriddenVersion` of the first candidate,
in the configured order, whose running sum of weights (its own included) is
greater than `r`: no earlier candidate has a running sum above `r`, that one
version is the only thing written, and it is what the returned map holds for
the Change. -/
theorem stored_version_is_first_exceeding (f : WorkflowVersionOverrideFlags)
    (pick : String → Int) (m : List (String × Int)) (name : String)
    (values : List WorkflowVersionOverrideFlagValue)
    (hret : f.RandomizeWorkflowVersionOverride pick = Except.ok m)
    (hmem : (name, values) ∈ f.entries)
    (hfit : ∀ k, k ≤ values.length →
      -2 ^ 63 ≤ exactRunningSum values k ∧ exactRunningSum values k < 2 ^ 63)
    (hpos : 0 < exactTotal values)
    (_hlo : 0 ≤ pick name) (hhi : pick name < exactTotal values) :
    ∃ i, ∃ hi : i < values.length,
      mapGet m name = some (values.get ⟨i, hi⟩).OverriddenVersion ∧
      (∀ results, resolveChange pick results name values =
        Except.ok (mapSet results name (values.get ⟨i, hi⟩).OverriddenVersion)) ∧
      pick name < exactRunningSum values (i + 1) ∧
      ∀ j, j < i → exactRunningSum values (j + 1) ≤ pick name := by
  have hlast := hfit values.length (le_refl _)
  rw [exactRunningSum_length] at hlast
  have hcode : sumWeights 0 values = exactTotal values :=
    sumWeights_eq_exactTotal values hlast.1 hlast.2
  have hne : sumWeights 0 values ≠ 0 := by omega
  obtain ⟨i, hi, -, hlt, hall⟩ := walk_selects name (pick name) values [] hfit hpos hhi
  have hw : ∀ results, walk name (pick name) 0 values results =
      mapSet results name (values.get ⟨i, hi⟩).OverriddenVersion := by
    intro results
    obtain ⟨i2, hi2, hw2, hlt2, hall2⟩ :=
      walk_selects name (pick name) values results hfit hpos hhi
    have hii : i2 = i := by
      rcases Nat.lt_trichotomy i2 i with h | h | h
      · have := hall i2 h
        omega
      · exact h
      · have := hall2 i h
        omega
    subst hii
    exact hw2
  refine ⟨i, hi, ?_, ?_, hlt, hall⟩
  · rw [resolveAll_get_mem pick f.entries [] m name values f.keys_nodup hret hmem]
    simp [changeResult, hne, hw, mapGet_mapSet_self]
  · intro results
    rw [resolveChange_pos pick results name values (by omega), hw]

theorem stored_version_is_first_exceeding_witness :
    sampleFlags.RandomizeWorkflowVersionOverride (fun _ => 12) = Except.ok [("Y", 2)] ∧
    ("Y", sampleValues) ∈ sampleFlags.entries ∧
    (∀ k, k ≤ sampleValues.length →
      -2 ^ 63 ≤ exactRunningSum sampleValues k ∧ exactRunningSum sampleValues k < 2 ^ 63) ∧
    0 < exactTotal sampleValues ∧
    (0 : Int) ≤ 12 ∧ 12 < exactTotal sampleValues ∧
    ∃ i, ∃ hi : i < sampleValues.length,
      mapGet [("Y", (2 : Int))] "Y" = some (sampleValues.get ⟨i, hi⟩).OverriddenVersion ∧
      (∀ results, resolveChange (fun _ => 12) results "Y" sampleValues =
        Except.ok (mapSet results "Y" (sampleValues.get ⟨i, hi⟩).OverriddenVersion)) ∧
      12 < exactRunningSum sampleValues (i + 1) ∧
      ∀ j, j < i → exactRunningSum sampleValues (j + 1) ≤ 12 :=
  have hfit : ∀ k, k ≤ sampleValues.length →
      -2 ^ 63 ≤ exactRunningSum sampleValues k ∧ exactRunningSum sampleValues k < 2 ^ 63 := by
    intro k hk
    have hk2 : k ≤ 2 := hk
    interval_cases k <;> decide
  ⟨rfl, by decide, hfit, by decide, by decide, by decide,
    stored_version_is_first_exceeding sampleFlags (fun _ => 12) [("Y", 2)] "Y" sampleValues
      rfl (by decide) hfit (by decide) (by decide) (by decide)⟩

/-- C5: on a configuration whose only Change has the single weight -1 the
total weight -1 passes the test against 0, `rand.Intn` is called with -1 and
panics: no map is returned, whatever the generator would have produced. -/
theorem negative_total_weight_panics (pick : String → Int) :
    negativeFlags.RandomizeWorkflowVersionOverride pick =
      Except.error "invalid argument to Intn" := by
  rfl

end handler_v2_final

/-! ## The versioned execution gate -/

namespace util

/-- C6, as stated, fails: with the entry 7 for `X` and `maxSupported = 5` on
an engine without markers, the engine is called with the bounds `(7, 5)`,
rejects the version 5 it assigns and panics; and with the entry 2 and a marker
1 recorded for `X` the engine rejects the marker for the bounds `(2, 5)`.  In
both cases `GetVersion` returns no version. -/
theorem GetVersion_panics_with_engine :
    mapGetNil (some [("X", (7 : Int))]) "X" = some 7 ∧
    GetVersion markerEngine { engine := [], trace := [] } (some [("X", 7)]) "X" 0 5 =
      (Except.error "version outside the supported range",
        { engine := [], trace := [Event.getVersion "X" 7 5] }) ∧
    mapGetNil (some [("X", (2 : Int))]) "X" = some 2 ∧
    GetVersion markerEngine { engine := [("X", 1)], trace := [] } (some [("X", 2)]) "X" 0 5 =
      (Except.error "version outside the supported range",
        { engine := [("X", 1)], trace := [Event.getVersion "X" 2 5] }) := by
  refine ⟨rfl, rfl, rfl, rfl⟩

/-- C6, amended: when the resolved map has the entry `v` for `changeID`,
`GetVersion` returns `v` whenever its call of the engine primitive returns,
whatever version and state that call gives and whatever the bounds; a panic of
the engine call is the outcome of `GetVersion`; and a second call on the
context the first call leaves returns `v` again when its engine call
returns. -/
theorem GetVersion_returns_override {σ : Type} (prim : VersionPrimitive σ) (ctx : Context σ)
    (versionOverride : Option (List (String × Int))) (changeID : String) (v : Int)
    (minSupported maxSupported : Int)
    (hentry : mapGetNil versionOverride changeID = some v) :
    (∀ w s, prim ctx.engine changeID v maxSupported = Except.ok (w, s) →
      (GetVersion prim ctx versionOverride changeID minSupported maxSupported).1 =
        Except.ok v) ∧
    (∀ e, prim ctx.engine changeID v maxSupported = Except.error e →
      (GetVersion prim ctx versionOverride changeID minSupported maxSupported).1 =
        Except.error e) ∧
    (∀ w s w2 s2, prim ctx.engine changeID v maxSupported = Except.ok (w, s) →
      prim s changeID v maxSupported = Except.ok (w2, s2) →
      (GetVersion prim
          (GetVersion prim ctx versionOverride changeID minSupported maxSupported).2
          versionOverride changeID minSupported maxSupported).1 = Except.ok v) := by
  refine ⟨?_, ?_, ?_⟩
  · intro w s h
    simp [GetVersion, hentry, workflow.GetVersion, h]
  · intro e h
    simp [GetVersion, hentry, workflow.GetVersion, h]
  · intro w s w2 s2 h h2
    simp [GetVersion, hentry, workflow.GetVersion, h, h2]

theorem GetVersion_returns_override_witness :
    mapGetNil (some [("X", (2 : Int))]) "X" = some 2 ∧
    markerEngine [] "X" 2 5 = Except.ok (5, [("X", 5)]) ∧
    markerEngine [("X", 5)] "X" 2 5 = Except.ok (5, [("X", 5)]) ∧
    (GetVersion markerEngine { engine := [], trace := [] } (some [("X", 2)]) "X" 0 5).1 =
      Except.ok 2 ∧
    (GetVersion markerEngine
        (GetVersion markerEngine { engine := [], trace := [] } (some [("X", 2)]) "X" 0 5).2
        (some [("X", 2)]) "X" 0 5).1 = Except.ok 2 :=
  ⟨rfl, rfl, rfl,
    (GetVersion_returns_override markerEngine { engine := [], trace := [] }
      (some [("X", 2)]) "X" 2 0 5 rfl).1 5 [("X", 5)] rfl,
    (GetVersion_returns_override markerEngine { engine := [], trace := [] }
      (some [("X", 2)]) "X" 2 0 5 rfl).2.2 5 [("X", 5)] 5 [("X", 5)] rfl rfl⟩

/-- C7: with the entry 2 for `X`, `minSupported = 0` and `maxSupported = 5`,
`GetVersion` returns 2 but calls the engine with the bounds `(2, 5)`: the
upper bound handed to the engine is the caller's 5, and an engine that records
its upper bound on first execution records 5 for `X`. -/
theorem GetVersion_override_engine_call :
    GetVersion markerEngine { engine := [], trace := [] } (some [("X", 2)]) "X" 0 5 =
      (Except.ok 2, { engine := [("X", 5)], trace := [Event.getVersion "X" 2 5] }) := by
  rfl

/-- C8: when the resolved map (nil included) has no entry for `changeID`,
`GetVersion` is one call of the engine primitive with
`(changeID, minSupported, maxSupported)`: the trace grows by exactly that
call, and the version and the engine state are the ones this call gives (a
panic of the call is passed on as it is). -/
theorem GetVersion_falls_back {σ : Type} (prim : VersionPrimitive σ) (ctx : Context σ)
    (versionOverride : Option (List (String × Int))) (changeID : String)
    (minSupported maxSupported : Int)
    (habsent : mapGetNil versionOverride changeID = none) :
    GetVersion prim ctx versionOverride changeID minSupported maxSupported =
      workflow.GetVersion prim ctx changeID minSupported maxSupported ∧
    (GetVersion prim ctx versionOverride changeID minSupported maxSupported).2.trace =
      ctx.trace ++ [Event.getVersion changeID minSupported maxSupported] ∧
    (∀ v s, prim ctx.engine changeID minSupported maxSupported = Except.ok (v, s) →
      (GetVersion prim ctx versionOverride changeID minSupported maxSupported).1 =
        Except.ok v ∧
      (GetVersion prim ctx versionOverride changeID minSupported maxSupported).2.engine = s) ∧
    (∀ e, prim ctx.engine changeID minSupported maxSupported = Except.error e →
      (GetVersion prim ctx versionOverride changeID minSupported maxSupported).1 =
        Except.error e) := by
  refine ⟨by simp [GetVersion, habsent], ?_, ?_, ?_⟩
  · simp only [GetVersion, habsent, workflow.GetVersion]
    split <;> rfl
  · intro v s h
    simp [GetVersion, habsent, workflow.GetVersion, h]
  · intro e h
    simp [GetVersion, habsent, workflow.GetVersion, h]

theorem GetVersion_falls_back_witness :
    mapGetNil (none : Option (List (String × Int))) "X" = none ∧
    markerEngine [("X", 1)] "X" 0 5 = Except.ok (1, [("X", 1)]) ∧
    (GetVersion markerEngine { engine := [("X", 1)], trace := [] } none "X" 0 5).2.trace =
      [] ++ [Event.getVersion "X" 0 5] ∧
    (GetVersion markerEngine { engine := [("X", 1)], trace := [] } none "X" 0 5).1 =
      Except.ok 1 ∧
    (GetVersion markerEngine { engine := [("X", 1)], trace := [] } none "X" 0 5).2.engine =
      [("X", 1)] :=
  ⟨rfl, rfl,
    (GetVersion_falls_back markerEngine { engine := [("X", 1)], trace := [] } none "X" 0 5
      rfl).2.1,
    (GetVersion_falls_back markerEngine { engine := [("X", 1)], trace := [] } none "X" 0 5
      rfl).2.2.1 1 [("X", 1)] rfl⟩

end util

/-! ## Branch dispatch -/

namespace handler_v2_final

/-- C9: `OrderWorkflow` of handler_v2_final does the same for every resolved
map it is given: it never calls the gate or the engine, and it runs
`ProcessOrderV2`, also when the map selects the default version. -/
theorem OrderWorkflow_ignores_versionOverride {σ : Type} (ctx : Context σ)
    (versionOverride : Option (List (String × Int))) (order : Order) :
    OrderWorkflow ctx versionOverride order =
      (none, { engine := ctx.engine,
               trace := ctx.trace ++ [Event.logInfo "Starting OrderWorkflow",
                 Event.processOrderV2 order,
                 Event.logInfo "Order processed successfully"] }) := by
  simp [OrderWorkflow, ProcessOrderV2, Context.emit]

end handler_v2_final

namespace handler_v2_baddesign

/-- C10: `OrderWorkflow` of handler_v2_baddesign asks the engine once for the
version of "OrderWorkflowVersion" with the bounds `(DefaultVersion, 2)` and
dispatches on the answer: the default version runs `ProcessOrder` only,
version 2 runs `ProcessOrderV2` only, and any other version runs neither and
returns the continue-as-new request for `OrderWorkflow` with the same order. -/
theorem OrderWorkflow_dispatch {σ : Type} (prim : VersionPrimitive σ) (ctx : Context σ)
    (order : Order) (version : Int) (engine : σ)
    (hversion : prim ctx.engine "OrderWorkflowVersion" workflow.DefaultVersion 2 =
      Except.ok (version, engine)) :
    (version = workflow.DefaultVersion →
      (OrderWorkflow prim ctx order).1 = Except.ok none ∧
      (OrderWorkflow prim ctx order).2.trace = ctx.trace ++
        [Event.getVersion "OrderWorkflowVersion" workflow.DefaultVersion 2,
         Event.logInfo "Starting OrderWorkflow",
         Event.processOrder order,
         Event.logInfo "Order processed successfully"]) ∧
    (version = 2 →
      (OrderWorkflow prim ctx order).1 = Except.ok none ∧
      (OrderWorkflow prim ctx order).2.trace = ctx.trace ++
        [Event.getVersion "OrderWorkflowVersion" workflow.DefaultVersion 2,
         Event.logInfo "Starting OrderWorkflow",
         Event.processOrderV2 order,
         Event.logInfo "Order processed successfully"]) ∧
    (version ≠ workflow.DefaultVersion → version ≠ 2 →
      (OrderWorkflow prim ctx order).1 =
        Except.ok (some (WorkflowError.continueAsNew "OrderWorkflow" order)) ∧
      (OrderWorkflow prim ctx order).2.trace = ctx.trace ++
        [Event.getVersion "OrderWorkflowVersion" workflow.DefaultVersion 2,
         Event.logInfo "Starting OrderWorkflow"]) := by
  refine ⟨?_, ?_, ?_⟩
  · intro h
    simp [OrderWorkflow, workflow.GetVersion, hversion, ProcessOrder, Context.emit, h]
  · intro h
    have hd : (2 : Int) ≠ workflow.DefaultVersion := by decide
    simp [OrderWorkflow, workflow.GetVersion, hversion, ProcessOrderV2, Context.emit, h, hd]
  · intro h1 h2
    simp [OrderWorkflow, workflow.GetVersion, hversion, Context.emit, h1, h2]

theorem OrderWorkflow_dispatch_witness :
    markerEngine [("OrderWorkflowVersion", 1)] "OrderWorkflowVersion"
      workflow.DefaultVersion 2 = Except.ok (1, [("OrderWorkflowVersion", 1)]) ∧
    (OrderWorkflow markerEngine { engine := [("OrderWorkflowVersion", 1)], trace := [] }
      { ID := 1, ProductID := 2, Quantity := 3 }).1 =
        Except.ok (some (WorkflowError.continueAsNew "OrderWorkflow"
          { ID := 1, ProductID := 2, Quantity := 3 })) ∧
    (OrderWorkflow markerEngine { engine := [("OrderWorkflowVersion", 1)], trace := [] }
      { ID := 1, ProductID := 2, Quantity := 3 }).2.trace = [] ++
        [Event.getVersion "OrderWorkflowVersion" workflow.DefaultVersion 2,
         Event.logInfo "Starting OrderWorkflow"] :=
  ⟨rfl, (OrderWorkflow_dispatch markerEngine
    { engine := [("OrderWorkflowVersion", 1)], trace := [] }
    { ID := 1, ProductID := 2, Quantity := 3 } 1 [("OrderWorkflowVersion", 1)] rfl).2.2
    (by decide) (by decide)⟩

end handler_v2_baddesign
